import Mathlib

/-!
Verification of the Little Lemon menu app (src/App.tsx).

The core pipeline of the app is embedded as executable Lean functions:

* `MenuItem` / `SectionData` mirror the TypeScript interfaces.
* `MENU_ITEMS` is the bundled default catalog.
* `getSectionListData` mirrors the reduce/Object.entries grouping.  The
  JavaScript object accumulator is an association list, and `Object.entries`
  enumerates its keys in the ECMAScript own-property order: array-index-like
  keys first in ascending numeric order, then the remaining string keys in
  insertion order (`jsKeyOrder`).
* `filterData` mirrors the search/category filter effect's predicate.
* `deriveInitial` mirrors the initial selection derivation in `initializeApp`.
* `toggleCategory` mirrors the spread-update in `toggleCategory`.
* `resolveCatalog` models the catalog resolution of `initializeApp`; the
  `./database` and `./api` modules are not part of the repository snapshot, so
  their behaviour is modelled from the spec where noted.
* `publishedFilteredView` mirrors the reactive filter effect, including its
  early return on an empty section list and its storage re-read fallback.
-/

namespace LittleLemon

/-- Mirrors the TypeScript `MenuItem` interface. -/
structure MenuItem where
  id : String
  title : String
  price : String
  category : String
deriving DecidableEq

/-- Mirrors the TypeScript `SectionData` interface. -/
structure SectionData where
  title : String
  data : List MenuItem
deriving DecidableEq

/-- The bundled default catalog `MENU_ITEMS` from src/App.tsx. -/
def MENU_ITEMS : List MenuItem :=
  [ ⟨"1", "Spinach Artichoke Dip", "10.99", "Appetizers"⟩,
    ⟨"2", "Hummus", "8.99", "Appetizers"⟩,
    ⟨"3", "Fried Calamari Rings", "12.99", "Appetizers"⟩,
    ⟨"4", "Fried Mushroom", "9.99", "Appetizers"⟩,
    ⟨"5", "Greek Salad", "9.99", "Salads"⟩,
    ⟨"6", "Caesar Salad", "8.99", "Salads"⟩,
    ⟨"7", "Tuna Salad", "11.99", "Salads"⟩,
    ⟨"8", "Grilled Chicken Salad", "12.99", "Salads"⟩,
    ⟨"9", "Water", "1.99", "Beverages"⟩,
    ⟨"10", "Coke", "2.99", "Beverages"⟩,
    ⟨"11", "Beer", "5.99", "Beverages"⟩,
    ⟨"12", "Ice Tea", "3.99", "Beverages"⟩ ]

/-- Check `charsLeadWith needle hay`: whether `needle` occurs at the start of `hay`. -/
def charsLeadWith : List Char → List Char → Bool
  | [], _ => true
  | _ :: _, [] => false
  | n :: ns, h :: hs => n == h && charsLeadWith ns hs

/-- Check `charsContain needle hay`: whether `needle` occurs contiguously inside
`hay` (JavaScript `String.prototype.includes`). -/
def charsContain (needle : List Char) : List Char → Bool
  | [] => needle.isEmpty
  | h :: hs => charsLeadWith needle (h :: hs) || charsContain needle hs

/-- Model of `item.title.toLowerCase().includes(searchText.toLowerCase())` from
the filter predicate in src/App.tsx. -/
def titleMatches (title searchText : String) : Bool :=
  charsContain (searchText.data.map Char.toLower) (title.data.map Char.toLower)

/-- First-match association-list lookup; models indexing a JavaScript object
(`Record<string, _>`) by a string key, `none` standing for `undefined`. -/
def alookup {β : Type} : List (String × β) → String → Option β
  | [], _ => none
  | p :: ps, c => if p.1 = c then some p.2 else alookup ps c

/-- Model of `selectedCategories[item.category]` used as a filter conjunct: an
absent key is `undefined`, which is falsy. -/
def isSelected (sel : List (String × Bool)) (c : String) : Bool :=
  (alookup sel c).getD false

/-- The per-item predicate of the filter effect in src/App.tsx:
`matchesSearch && categoryIsSelected`. -/
def itemMatches (searchText : String) (sel : List (String × Bool)) (i : MenuItem) : Bool :=
  titleMatches i.title searchText && isSelected sel i.category

/-- Numeric value of a decimal digit string. -/
def digitsVal (l : List Char) : Nat :=
  l.foldl (fun n c => n * 10 + (c.toNat - 48)) 0

/-- Whether a string is an ECMAScript array index: the canonical decimal
representation (digits only, no leading zero except "0" itself) of an integer
in the range 0 to 2^32 - 2.  Object property enumeration puts such keys
first, in ascending numeric order. -/
def isArrayIndex (s : String) : Bool :=
  match s.data with
  | [] => false
  | c :: cs =>
    (c :: cs).all Char.isDigit
    && (if c = '0' then cs.isEmpty else true)
    && digitsVal (c :: cs) < 4294967295

/-- Insert a key into a list kept sorted by ascending numeric value. -/
def insertSorted (k : String) : List String → List String
  | [] => [k]
  | x :: xs =>
    if digitsVal k.data ≤ digitsVal x.data then k :: x :: xs
    else x :: insertSorted k xs

/-- Sort keys by ascending numeric value (insertion sort). -/
def sortIndices : List String → List String
  | [] => []
  | x :: xs => insertSorted x (sortIndices xs)

/-- The ECMAScript own-property-key enumeration order used by
`Object.entries`: array-index-like keys first, in ascending numeric order,
then the remaining string keys in insertion order. -/
def jsKeyOrder (keys : List String) : List String :=
  sortIndices (keys.filter (fun k => isArrayIndex k))
    ++ keys.filter (fun k => !(isArrayIndex k))

/-- One step of the `reduce` in `getSectionListData`: append the item to its
category bucket, creating the bucket on first occurrence (the association
list records insertion order; enumeration order is applied by `jsKeyOrder`
when the object is converted to entries). -/
def addToGroup (acc : List (String × List MenuItem)) (i : MenuItem) :
    List (String × List MenuItem) :=
  if (alookup acc i.category).isSome then
    acc.map (fun p => if p.1 = i.category then (p.1, p.2 ++ [i]) else p)
  else
    acc ++ [(i.category, [i])]

/-- Model of `getSectionListData` from src/App.tsx: group by category via
the `reduce`, then `Object.entries` into section objects, enumerating the
accumulated buckets in the ECMAScript own-property order `jsKeyOrder`. -/
def getSectionListData (data : List MenuItem) : List SectionData :=
  (jsKeyOrder ((data.foldl addToGroup []).map Prod.fst)).map
    (fun k => ⟨k, (alookup (data.foldl addToGroup []) k).getD []⟩)

/-- The filter path of the filter effect in src/App.tsx: keep the items
matching the search text and whose category is selected, then regroup. -/
def filterData (items : List MenuItem) (searchText : String)
    (sel : List (String × Bool)) : List SectionData :=
  getSectionListData (items.filter (itemMatches searchText sel))

/-- An item appears somewhere in a section list. -/
def appears (view : List SectionData) (i : MenuItem) : Bool :=
  view.any (fun s => i ∈ s.data)

/-- Concatenate the items of a section list back into a flat item list. -/
def flattenSections (view : List SectionData) : List MenuItem :=
  (view.map SectionData.data).flatten

/-- Compute `uniqueAux seen l`: the elements of `l` not in `seen`, each kept at
its first occurrence, in first-occurrence order.  Applied to an empty `seen`
this models `[...new Set(l)]` from src/App.tsx. -/
def uniqueAux : List String → List String → List String
  | _, [] => []
  | seen, c :: cs => if c ∈ seen then uniqueAux seen cs else c :: uniqueAux (c :: seen) cs

/-- Index of the first occurrence of `c` (length of the list when absent). -/
def firstIdx (c : String) : List String → Nat
  | [] => 0
  | x :: xs => if x = c then 0 else firstIdx c xs + 1

/-- The initial selection derivation from `initializeApp` in src/App.tsx:
`[...new Set(items.map(i => i.category))]`, then every category set to
`true` in that order. -/
def deriveInitial (items : List MenuItem) : List (String × Bool) :=
  (uniqueAux [] (items.map MenuItem.category)).map (fun c => (c, true))

/-- Model of `toggleCategory` from src/App.tsx, the spread update of the
selection record. An existing key keeps its position and gets the negated value; an absent key
reads as `undefined` (so `!prev[category]` is `true`) and is appended. -/
def toggleCategory (prev : List (String × Bool)) (category : String) :
    List (String × Bool) :=
  if (alookup prev category).isSome then
    prev.map (fun p =>
      if p.1 = category then (p.1, !((alookup prev category).getD false)) else p)
  else
    prev ++ [(category, !((alookup prev category).getD false))]

/-- Modelled from the spec: `getMenuItems` of the absent `./database` module.
Per §4.1 step 4 it reads the catalog from persistent storage and falls back
to the bundled default list when storage is empty or unavailable. -/
def getMenuItems (store : Option (List MenuItem)) : List MenuItem :=
  match store with
  | some items => if items.isEmpty then MENU_ITEMS else items
  | none => MENU_ITEMS

/-- Modelled from the spec: `saveMenuItems` of the absent `./database` module.
Per §6 the write is best-effort: it replaces the stored items when storage is
available and is a no-op otherwise. -/
def saveToStore (store : Option (List MenuItem)) (items : List MenuItem) :
    Option (List MenuItem) :=
  match store with
  | some _ => some items
  | none => none

/-- The catalog resolution of `initializeApp` in src/App.tsx: try the remote
fetch (`none` = the fetch threw), persist a successful fetch best-effort, then
read back through `getMenuItems`; every failure is absorbed, never rethrown. -/
def resolveCatalog (fetchResult : Option (List MenuItem))
    (store : Option (List MenuItem)) : List MenuItem :=
  match fetchResult with
  | some fetched => getMenuItems (saveToStore store fetched)
  | none => getMenuItems store

/-- The reactive filter effect in src/App.tsx: it returns early (keeping the
previously published view) when the `data` section list is empty; otherwise it
re-reads the items from storage (`none` = the read threw, in which case the
catch block filters `MENU_ITEMS`) and publishes the filtered sections. -/
def publishedFilteredView (data : List SectionData)
    (storeRead : Option (List MenuItem)) (searchText : String)
    (sel : List (String × Bool)) (prevFiltered : List SectionData) :
    List SectionData :=
  if data.length = 0 then prevFiltered
  else
    match storeRead with
    | some items => filterData items searchText sel
    | none => filterData MENU_ITEMS searchText sel

/-- The three-item demo catalog from the end-to-end scenarios. -/
def demoCatalog : List MenuItem :=
  [ ⟨"2", "Hummus", "8.99", "Appetizers"⟩,
    ⟨"5", "Greek Salad", "9.99", "Salads"⟩,
    ⟨"9", "Water", "1.99", "Beverages"⟩ ]

/-- A one-item catalog whose category does not occur in `MENU_ITEMS`. -/
def pizzaCatalog : List MenuItem := [⟨"p1", "Pizza", "12.00", "Mains"⟩]

/-- A catalog whose category names are array-index-like strings, so that
ECMAScript object enumeration reorders them numerically. -/
def idxCatalog : List MenuItem :=
  [ ⟨"a", "Two", "0.00", "2"⟩,
    ⟨"b", "One", "0.00", "1"⟩ ]

/-! ### Lemmas about `uniqueAux` and `firstIdx` -/

theorem uniqueAux_nil (seen : List String) : uniqueAux seen [] = [] := rfl

theorem uniqueAux_cons (seen : List String) (c : String) (cs : List String) :
    uniqueAux seen (c :: cs) =
      if c ∈ seen then uniqueAux seen cs else c :: uniqueAux (c :: seen) cs := rfl

theorem firstIdx_cons (c x : String) (xs : List String) :
    firstIdx c (x :: xs) = if x = c then 0 else firstIdx c xs + 1 := rfl

theorem mem_uniqueAux (l : List String) : ∀ (seen : List String) (c : String),
    c ∈ uniqueAux seen l ↔ c ∈ l ∧ c ∉ seen := by
  induction l with
  | nil => intro seen c; simp [uniqueAux_nil]
  | cons x xs ih =>
    intro seen c
    rw [uniqueAux_cons]
    by_cases hx : x ∈ seen
    · rw [if_pos hx, ih seen c]
      constructor
      · rintro ⟨h1, h2⟩
        exact ⟨List.mem_cons_of_mem x h1, h2⟩
      · rintro ⟨h1, h2⟩
        rcases List.mem_cons.mp h1 with rfl | h1
        · exact absurd hx h2
        · exact ⟨h1, h2⟩
    · rw [if_neg hx]
      constructor
      · intro hmem
        rcases List.mem_cons.mp hmem with rfl | h1
        · exact ⟨List.mem_cons_self c xs, hx⟩
        · obtain ⟨h2, h3⟩ := (ih (x :: seen) c).mp h1
          exact ⟨List.mem_cons_of_mem x h2, fun hc => h3 (List.mem_cons_of_mem x hc)⟩
      · rintro ⟨h1, h2⟩
        rcases List.mem_cons.mp h1 with rfl | h1
        · exact List.mem_cons_self c _
        · by_cases hcx : c = x
          · rw [hcx]
            exact List.mem_cons_self x _
          · refine List.mem_cons_of_mem x ((ih (x :: seen) c).mpr ⟨h1, fun hc => ?_⟩)
            rcases List.mem_cons.mp hc with hc | hc
            · exact hcx hc
            · exact h2 hc

theorem nodup_uniqueAux (l : List String) : ∀ seen : List String,
    (uniqueAux seen l).Nodup := by
  induction l with
  | nil => intro seen; simp [uniqueAux_nil]
  | cons x xs ih =>
    intro seen
    rw [uniqueAux_cons]
    by_cases hx : x ∈ seen
    · rw [if_pos hx]; exact ih seen
    · rw [if_neg hx]
      refine List.nodup_cons.mpr ⟨?_, ih (x :: seen)⟩
      intro hmem
      exact ((mem_uniqueAux xs (x :: seen) x).mp hmem).2 (List.mem_cons_self x seen)

theorem uniqueAux_congr (l : List String) : ∀ s1 s2 : List String,
    (∀ x, x ∈ s1 ↔ x ∈ s2) → uniqueAux s1 l = uniqueAux s2 l := by
  induction l with
  | nil => intro s1 s2 _; rfl
  | cons x xs ih =>
    intro s1 s2 h
    rw [uniqueAux_cons, uniqueAux_cons]
    by_cases hx : x ∈ s1
    · rw [if_pos hx, if_pos ((h x).mp hx)]
      exact ih s1 s2 h
    · rw [if_neg hx, if_neg (fun hc => hx ((h x).mpr hc))]
      rw [ih (x :: s1) (x :: s2) (fun y => by simp only [List.mem_cons, h y])]

theorem uniqueAux_pairwise_firstIdx (l : List String) : ∀ seen : List String,
    (uniqueAux seen l).Pairwise (fun a b => firstIdx a l < firstIdx b l) := by
  induction l with
  | nil => intro seen; simp [uniqueAux_nil]
  | cons x xs ih =>
    intro seen
    rw [uniqueAux_cons]
    by_cases hx : x ∈ seen
    · rw [if_pos hx]
      refine (ih seen).imp_of_mem ?_
      intro a b ha hb hab
      have hane : x ≠ a := fun h =>
        ((mem_uniqueAux xs seen a).mp ha).2 (by rw [← h]; exact hx)
      have hbne : x ≠ b := fun h =>
        ((mem_uniqueAux xs seen b).mp hb).2 (by rw [← h]; exact hx)
      rw [firstIdx_cons, firstIdx_cons, if_neg hane, if_neg hbne]
      exact Nat.succ_lt_succ hab
    · rw [if_neg hx]
      refine List.pairwise_cons.mpr ⟨?_, ?_⟩
      · intro b hb
        have hbne : x ≠ b := fun h =>
          ((mem_uniqueAux xs (x :: seen) b).mp hb).2 (by rw [h]; exact List.mem_cons_self b seen)
        rw [firstIdx_cons, firstIdx_cons, if_pos rfl, if_neg hbne]
        exact Nat.succ_pos _
      · refine (ih (x :: seen)).imp_of_mem ?_
        intro a b ha hb hab
        have hane : x ≠ a := fun h =>
          ((mem_uniqueAux xs (x :: seen) a).mp ha).2 (by rw [h]; exact List.mem_cons_self a seen)
        have hbne : x ≠ b := fun h =>
          ((mem_uniqueAux xs (x :: seen) b).mp hb).2 (by rw [h]; exact List.mem_cons_self b seen)
        rw [firstIdx_cons, firstIdx_cons, if_neg hane, if_neg hbne]
        exact Nat.succ_lt_succ hab

theorem length_uniqueAux (l : List String) :
    (uniqueAux [] l).length = l.dedup.length := by
  have h1 : (uniqueAux [] l).Nodup := nodup_uniqueAux l []
  have h2 : l.dedup.Nodup := List.nodup_dedup l
  have h : ∀ c, c ∈ uniqueAux [] l ↔ c ∈ l.dedup := by
    intro c
    rw [mem_uniqueAux, List.mem_dedup]
    simp
  exact ((List.perm_ext_iff_of_nodup h1 h2).mpr h).length_eq

/-! ### Lemmas about `alookup` -/

theorem alookup_nil {β : Type} (c : String) :
    alookup ([] : List (String × β)) c = none := rfl

theorem alookup_cons {β : Type} (p : String × β) (ps : List (String × β)) (c : String) :
    alookup (p :: ps) c = if p.1 = c then some p.2 else alookup ps c := rfl

theorem alookup_isSome {β : Type} (l : List (String × β)) (c : String) :
    (alookup l c).isSome = true ↔ c ∈ l.map Prod.fst := by
  induction l with
  | nil => simp [alookup_nil]
  | cons p ps ih =>
    rw [alookup_cons, List.map_cons, List.mem_cons]
    by_cases h : p.1 = c
    · simp [h]
    · simp only [if_neg h, ih]
      constructor
      · exact Or.inr
      · rintro (h1 | h1)
        · exact absurd h1.symm h
        · exact h1

theorem alookup_map_mk {β : Type} (f : String → β) (u : List String) (k : String) :
    alookup (u.map (fun c => (c, f c))) k = if k ∈ u then some (f k) else none := by
  induction u with
  | nil => simp [alookup_nil]
  | cons x xs ih =>
    rw [List.map_cons, alookup_cons]
    by_cases hx : x = k
    · subst hx
      simp
    · have hkx : ¬(k = x) := fun hh => hx hh.symm
      simp [hx, hkx, List.mem_cons, ih]

/-! ### Lemmas about the ECMAScript key enumeration order -/

theorem perm_insertSorted (k : String) : ∀ l : List String,
    (insertSorted k l).Perm (k :: l) := by
  intro l
  induction l with
  | nil => exact List.Perm.refl _
  | cons x xs ih =>
    by_cases h : digitsVal k.data ≤ digitsVal x.data
    · have he : insertSorted k (x :: xs) = k :: x :: xs := by simp [insertSorted, h]
      rw [he]
    · have he : insertSorted k (x :: xs) = x :: insertSorted k xs := by
        simp [insertSorted, h]
      rw [he]
      exact (List.Perm.cons x ih).trans (List.Perm.swap k x xs)

theorem perm_sortIndices : ∀ l : List String, (sortIndices l).Perm l := by
  intro l
  induction l with
  | nil => exact List.Perm.refl _
  | cons x xs ih => exact (perm_insertSorted x (sortIndices xs)).trans (List.Perm.cons x ih)

theorem sorted_insertSorted (k : String) : ∀ l : List String,
    l.Pairwise (fun a b => digitsVal a.data ≤ digitsVal b.data) →
    (insertSorted k l).Pairwise (fun a b => digitsVal a.data ≤ digitsVal b.data) := by
  intro l
  induction l with
  | nil =>
    intro _
    simp [insertSorted]
  | cons x xs ih =>
    intro hs
    by_cases h : digitsVal k.data ≤ digitsVal x.data
    · have he : insertSorted k (x :: xs) = k :: x :: xs := by simp [insertSorted, h]
      rw [he]
      refine List.pairwise_cons.mpr ⟨?_, hs⟩
      intro b hb
      rcases List.mem_cons.mp hb with rfl | hb'
      · exact h
      · exact Nat.le_trans h ((List.pairwise_cons.mp hs).1 b hb')
    · have he : insertSorted k (x :: xs) = x :: insertSorted k xs := by
        simp [insertSorted, h]
      rw [he]
      refine List.pairwise_cons.mpr ⟨?_, ih (List.pairwise_cons.mp hs).2⟩
      intro b hb
      rcases List.mem_cons.mp ((perm_insertSorted k xs).mem_iff.mp hb) with rfl | hb'
      · exact Nat.le_of_not_le h
      · exact (List.pairwise_cons.mp hs).1 b hb'

theorem sorted_sortIndices : ∀ l : List String,
    (sortIndices l).Pairwise (fun a b => digitsVal a.data ≤ digitsVal b.data) := by
  intro l
  induction l with
  | nil => simp [sortIndices]
  | cons x xs ih => exact sorted_insertSorted x (sortIndices xs) ih

theorem insertSorted_of_le_all (k : String) (l : List String)
    (h : ∀ b ∈ l, digitsVal k.data ≤ digitsVal b.data) : insertSorted k l = k :: l := by
  cases l with
  | nil => rfl
  | cons x xs => simp [insertSorted, h x (List.mem_cons_self x xs)]

theorem sortIndices_of_sorted : ∀ l : List String,
    l.Pairwise (fun a b => digitsVal a.data ≤ digitsVal b.data) → sortIndices l = l := by
  intro l
  induction l with
  | nil => intro _; rfl
  | cons x xs ih =>
    intro hs
    have h1 := List.pairwise_cons.mp hs
    show insertSorted x (sortIndices xs) = x :: xs
    rw [ih h1.2]
    exact insertSorted_of_le_all x xs h1.1

theorem mem_jsKeyOrder (keys : List String) (k : String) :
    k ∈ jsKeyOrder keys ↔ k ∈ keys := by
  rw [jsKeyOrder, List.mem_append, (perm_sortIndices _).mem_iff]
  constructor
  · rintro (h | h)
    · exact (List.mem_filter.mp h).1
    · exact (List.mem_filter.mp h).1
  · intro h
    cases hb : isArrayIndex k with
    | true => exact Or.inl (List.mem_filter.mpr ⟨h, hb⟩)
    | false => exact Or.inr (List.mem_filter.mpr ⟨h, by simp [hb]⟩)

theorem nodup_jsKeyOrder (keys : List String) (h : keys.Nodup) :
    (jsKeyOrder keys).Nodup := by
  rw [jsKeyOrder]
  refine List.Nodup.append ?_ (h.filter _) ?_
  · exact ((perm_sortIndices _).nodup_iff).mpr (h.filter _)
  · intro a ha hb
    have h1 : isArrayIndex a = true :=
      (List.mem_filter.mp ((perm_sortIndices _).mem_iff.mp ha)).2
    have h2 : (!(isArrayIndex a)) = true := (List.mem_filter.mp hb).2
    rw [h1] at h2
    exact Bool.noConfusion h2

theorem jsKeyOrder_of_no_index (keys : List String)
    (h : ∀ k ∈ keys, isArrayIndex k = false) : jsKeyOrder keys = keys := by
  rw [jsKeyOrder]
  have h1 : keys.filter (fun k => isArrayIndex k) = [] := by
    rw [List.filter_eq_nil_iff]
    intro a ha
    simp [h a ha]
  have h2 : keys.filter (fun k => !(isArrayIndex k)) = keys := by
    rw [List.filter_eq_self]
    intro a ha
    simp [h a ha]
  rw [h1, h2]
  rfl

theorem jsKeyOrder_eq_self_of_parts (A B : List String)
    (hA : ∀ a ∈ A, isArrayIndex a = true) (hB : ∀ b ∈ B, isArrayIndex b = false)
    (hAs : A.Pairwise (fun a b => digitsVal a.data ≤ digitsVal b.data)) :
    jsKeyOrder (A ++ B) = A ++ B := by
  rw [jsKeyOrder, List.filter_append, List.filter_append]
  have h1 : A.filter (fun k => isArrayIndex k) = A := by
    rw [List.filter_eq_self]
    intro a ha
    exact hA a ha
  have h2 : B.filter (fun k => isArrayIndex k) = [] := by
    rw [List.filter_eq_nil_iff]
    intro a ha
    simp [hB a ha]
  have h3 : A.filter (fun k => !(isArrayIndex k)) = [] := by
    rw [List.filter_eq_nil_iff]
    intro a ha
    simp [hA a ha]
  have h4 : B.filter (fun k => !(isArrayIndex k)) = B := by
    rw [List.filter_eq_self]
    intro a ha
    simp [hB a ha]
  rw [h1, h2, h3, h4, List.append_nil, List.nil_append, sortIndices_of_sorted A hAs]

theorem jsKeyOrder_idem (keys : List String) :
    jsKeyOrder (jsKeyOrder keys) = jsKeyOrder keys := by
  have hsplit : jsKeyOrder keys
      = sortIndices (keys.filter (fun k => isArrayIndex k))
        ++ keys.filter (fun k => !(isArrayIndex k)) := rfl
  rw [hsplit]
  refine jsKeyOrder_eq_self_of_parts _ _ ?_ ?_ (sorted_sortIndices _)
  · intro a ha
    exact (List.mem_filter.mp ((perm_sortIndices _).mem_iff.mp ha)).2
  · intro a ha
    have h2 : (!(isArrayIndex a)) = true := (List.mem_filter.mp ha).2
    cases hb : isArrayIndex a with
    | true =>
      rw [hb] at h2
      exact Bool.noConfusion h2
    | false => rfl

/-! ### Characterization of the grouping fold -/

theorem foldl_addToGroup (l : List MenuItem) : ∀ acc : List (String × List MenuItem),
    l.foldl addToGroup acc =
      acc.map (fun p => (p.1, p.2 ++ l.filter (fun i => i.category = p.1)))
      ++ (uniqueAux (acc.map Prod.fst) (l.map MenuItem.category)).map
          (fun c => (c, l.filter (fun i => i.category = c))) := by
  induction l with
  | nil =>
    intro acc
    simp [uniqueAux_nil]
  | cons i rest ih =>
    intro acc
    rw [List.foldl_cons, ih (addToGroup acc i), List.map_cons]
    by_cases h : i.category ∈ acc.map Prod.fst
    · have hs : (alookup acc i.category).isSome = true := (alookup_isSome acc i.category).mpr h
      have hadd : addToGroup acc i =
          acc.map (fun p => if p.1 = i.category then (p.1, p.2 ++ [i]) else p) := by
        rw [addToGroup, if_pos hs]
      have hkeys : (acc.map (fun p => if p.1 = i.category then (p.1, p.2 ++ [i]) else p)).map
          Prod.fst = acc.map Prod.fst := by
        rw [List.map_map]
        apply List.map_congr_left
        intro p _
        by_cases hp : p.1 = i.category <;> simp [hp]
      rw [hadd, hkeys, uniqueAux_cons, if_pos h]
      congr 1
      · rw [List.map_map]
        apply List.map_congr_left
        intro p _
        by_cases hp : p.1 = i.category
        · simp [Function.comp, hp, List.filter_cons, List.append_assoc]
        · have hp' : ¬(i.category = p.1) := fun hh => hp hh.symm
          simp [hp, hp', List.filter_cons, Function.comp]
      · apply List.map_congr_left
        intro c hc
        have hcne : ¬(i.category = c) := fun hh =>
          ((mem_uniqueAux (rest.map MenuItem.category) (acc.map Prod.fst) c).mp hc).2
            (hh ▸ h)
        simp [List.filter_cons, hcne]
    · have hs : ¬((alookup acc i.category).isSome = true) := fun hh =>
        h ((alookup_isSome acc i.category).mp hh)
      have hadd : addToGroup acc i = acc ++ [(i.category, [i])] := by
        rw [addToGroup, if_neg hs]
      rw [hadd, uniqueAux_cons, if_neg h]
      simp only [List.map_append, List.map_cons, List.map_nil]
      have hseen : uniqueAux (acc.map Prod.fst ++ [i.category]) (rest.map MenuItem.category)
          = uniqueAux (i.category :: acc.map Prod.fst) (rest.map MenuItem.category) := by
        apply uniqueAux_congr
        intro y
        simp [List.mem_append, List.mem_cons, or_comm]
      rw [hseen, List.append_assoc, List.singleton_append]
      congr 1
      · apply List.map_congr_left
        intro p hp
        have hpne : ¬(i.category = p.1) := fun hh =>
          h (hh ▸ List.mem_map_of_mem Prod.fst hp)
        simp [List.filter_cons, hpne]
      · congr 1
        · simp [List.filter_cons]
        · apply List.map_congr_left
          intro c hc
          have hcne : ¬(i.category = c) := fun hh =>
            ((mem_uniqueAux (rest.map MenuItem.category)
              (i.category :: acc.map Prod.fst) c).mp hc).2
              (hh ▸ List.mem_cons_self i.category (acc.map Prod.fst))
          simp [List.filter_cons, hcne]

/-- Characterization: `getSectionListData` is one section per category, the
categories enumerated in `jsKeyOrder` applied to first-occurrence order, each
section holding exactly the input items of its category in input order. -/
theorem getSectionListData_eq (data : List MenuItem) :
    getSectionListData data =
      (jsKeyOrder (uniqueAux [] (data.map MenuItem.category))).map
        (fun c => ⟨c, data.filter (fun i => i.category = c)⟩) := by
  rw [getSectionListData, foldl_addToGroup data []]
  simp only [List.map_nil, List.nil_append]
  have hkeys : ((uniqueAux [] (data.map MenuItem.category)).map
      (fun c => (c, data.filter (fun i => i.category = c)))).map Prod.fst
      = uniqueAux [] (data.map MenuItem.category) := by
    rw [List.map_map]
    simp [Function.comp_def]
  rw [hkeys]
  apply List.map_congr_left
  intro k hk
  have hku : k ∈ uniqueAux [] (data.map MenuItem.category) := (mem_jsKeyOrder _ k).mp hk
  rw [alookup_map_mk, if_pos hku]
  rfl

/-- Characterization without array-index-like categories: the enumeration is
pure first-occurrence order. -/
theorem getSectionListData_eq_no_index (data : List MenuItem)
    (h : ∀ i ∈ data, isArrayIndex i.category = false) :
    getSectionListData data =
      (uniqueAux [] (data.map MenuItem.category)).map
        (fun c => ⟨c, data.filter (fun i => i.category = c)⟩) := by
  rw [getSectionListData_eq, jsKeyOrder_of_no_index]
  intro k hk
  obtain ⟨hkm, -⟩ := (mem_uniqueAux _ _ k).mp hk
  obtain ⟨i, hi, rfl⟩ := List.mem_map.mp hkm
  exact h i hi

theorem appears_getSectionListData (l : List MenuItem) (i : MenuItem) :
    appears (getSectionListData l) i = true ↔ i ∈ l := by
  rw [appears, List.any_eq_true]
  constructor
  · rintro ⟨s, hs, hmem⟩
    rw [getSectionListData_eq] at hs
    obtain ⟨c, hc, rfl⟩ := List.mem_map.mp hs
    have hif : i ∈ l.filter (fun i' => i'.category = c) := of_decide_eq_true hmem
    exact (List.mem_filter.mp hif).1
  · intro hi
    refine ⟨⟨i.category, l.filter (fun i' => i'.category = i.category)⟩, ?_, ?_⟩
    · rw [getSectionListData_eq]
      refine List.mem_map_of_mem _ ?_
      refine (mem_jsKeyOrder _ _).mpr ?_
      exact (mem_uniqueAux (l.map MenuItem.category) [] i.category).mpr
        ⟨List.mem_map_of_mem MenuItem.category hi, List.not_mem_nil _⟩
    · exact decide_eq_true (List.mem_filter.mpr ⟨hi, by simp⟩)

/-- Claim C1: an item appears in the FilteredView iff its title contains the
search text case-insensitively and the selection maps its category to `true`;
an item whose category is absent from the selection map never appears. -/
theorem filter_view_membership (items : List MenuItem) (searchText : String)
    (sel : List (String × Bool)) (i : MenuItem) :
    (appears (filterData items searchText sel) i = true ↔
      i ∈ items ∧ titleMatches i.title searchText = true
        ∧ alookup sel i.category = some true)
    ∧ (alookup sel i.category = none →
        appears (filterData items searchText sel) i = false) := by
  have hsel : isSelected sel i.category = true ↔ alookup sel i.category = some true := by
    rw [isSelected]
    cases halo : alookup sel i.category with
    | none => simp
    | some b => cases b <;> simp
  have hmain : appears (filterData items searchText sel) i = true ↔
      i ∈ items ∧ titleMatches i.title searchText = true
        ∧ alookup sel i.category = some true := by
    rw [filterData, appears_getSectionListData, List.mem_filter, itemMatches,
      Bool.and_eq_true, hsel]
  refine ⟨hmain, ?_⟩
  intro hnone
  cases hb : appears (filterData items searchText sel) i with
  | false => rfl
  | true =>
    exfalso
    obtain ⟨-, -, hsome⟩ := hmain.mp hb
    rw [hnone] at hsome
    exact Option.noConfusion hsome

theorem filter_view_membership_witness :
    appears (filterData demoCatalog ("Wat") [("Beverages", true)])
      ⟨"9", "Water", "1.99", "Beverages"⟩ = true
    ∧ appears (filterData demoCatalog ("Wat") []) ⟨"9", "Water", "1.99", "Beverages"⟩ = false :=
  ⟨(filter_view_membership demoCatalog ("Wat") [("Beverages", true)]
      ⟨"9", "Water", "1.99", "Beverages"⟩).1.mpr ⟨by decide, by decide, by decide⟩,
   (filter_view_membership demoCatalog ("Wat") []
      ⟨"9", "Water", "1.99", "Beverages"⟩).2 (by decide)⟩

/-- Claim C3 counterexample: for the catalog whose categories are the
array-index-like strings "2" then "1", the sections come out titled
["1", "2"] — ascending numeric order — although "2" occurs first in the
input (its first-occurrence index is 0, that of "1" is 1), so the
first-seen-order property fails at this input. -/
theorem grouping_not_first_seen_for_index_keys :
    (getSectionListData idxCatalog).map SectionData.title = ["1", "2"]
    ∧ uniqueAux [] (idxCatalog.map MenuItem.category) = ["2", "1"]
    ∧ firstIdx "2" (idxCatalog.map MenuItem.category) = 0
    ∧ firstIdx "1" (idxCatalog.map MenuItem.category) = 1
    ∧ ¬ ((getSectionListData idxCatalog).map SectionData.title).Pairwise
        (fun a b => firstIdx a (idxCatalog.map MenuItem.category)
          < firstIdx b (idxCatalog.map MenuItem.category)) := by
  decide

/-- Claim C3 (amended): for every item sequence none of whose category names
is an array-index-like string (which ECMAScript object enumeration reorders
first, in ascending numeric order), grouping produces sections whose category
order equals the order of first occurrence of each category in the input
(strictly increasing first-occurrence indices), and each section holds
exactly the input's items of that category in input relative order. -/
theorem grouping_first_seen_order (data : List MenuItem)
    (hni : ∀ i ∈ data, isArrayIndex i.category = false) :
    ((getSectionListData data).map SectionData.title).Nodup
    ∧ (∀ c : String, c ∈ (getSectionListData data).map SectionData.title ↔
        c ∈ data.map MenuItem.category)
    ∧ ((getSectionListData data).map SectionData.title).Pairwise
        (fun a b => firstIdx a (data.map MenuItem.category)
          < firstIdx b (data.map MenuItem.category))
    ∧ ∀ s ∈ getSectionListData data,
        s.data = data.filter (fun i => i.category = s.title) := by
  have htitles : (getSectionListData data).map SectionData.title
      = uniqueAux [] (data.map MenuItem.category) := by
    rw [getSectionListData_eq_no_index data hni, List.map_map]
    simp [Function.comp_def]
  refine ⟨?_, ?_, ?_, ?_⟩
  · rw [htitles]
    exact nodup_uniqueAux _ []
  · intro c
    rw [htitles, mem_uniqueAux]
    simp
  · rw [htitles]
    exact uniqueAux_pairwise_firstIdx _ []
  · intro s hs
    rw [getSectionListData_eq] at hs
    obtain ⟨c, hc, rfl⟩ := List.mem_map.mp hs
    rfl

theorem grouping_first_seen_order_witness :
    (⟨"Salads", [⟨"5", "Greek Salad", "9.99", "Salads"⟩]⟩ : SectionData).data
      = demoCatalog.filter (fun i =>
          i.category = (⟨"Salads", [⟨"5", "Greek Salad", "9.99", "Salads"⟩]⟩ : SectionData).title) :=
  (grouping_first_seen_order demoCatalog (by decide)).2.2.2
    ⟨"Salads", [⟨"5", "Greek Salad", "9.99", "Salads"⟩]⟩ (by decide)

/-- Claim C5: the initial selection derivation gives every distinct category
of the item list exactly one entry, valued `true`, with no other entries, and
as many keys as there are distinct categories. -/
theorem deriveInitial_complete (items : List MenuItem) :
    (∀ c : String, c ∈ items.map MenuItem.category ↔
      alookup (deriveInitial items) c = some true)
    ∧ (∀ p ∈ deriveInitial items, p.2 = true)
    ∧ ((deriveInitial items).map Prod.fst).Nodup
    ∧ (deriveInitial items).length = (items.map MenuItem.category).dedup.length := by
  have hkeys : (deriveInitial items).map Prod.fst
      = uniqueAux [] (items.map MenuItem.category) := by
    rw [deriveInitial, List.map_map]
    simp [Function.comp_def]
  have hlook : ∀ c, alookup (deriveInitial items) c
      = if c ∈ uniqueAux [] (items.map MenuItem.category) then some true else none := by
    intro c
    rw [deriveInitial]
    generalize uniqueAux [] (items.map MenuItem.category) = u
    induction u with
    | nil => simp [alookup_nil]
    | cons x xs ih =>
      rw [List.map_cons, alookup_cons]
      by_cases hx : x = c
      · simp [hx]
      · have hcx : ¬(c = x) := fun hh => hx hh.symm
        simp [hx, hcx, List.mem_cons, ih]
  refine ⟨?_, ?_, ?_, ?_⟩
  · intro c
    rw [hlook c]
    by_cases hc : c ∈ uniqueAux [] (items.map MenuItem.category)
    · rw [if_pos hc]
      exact iff_of_true ((mem_uniqueAux _ _ c).mp hc).1 rfl
    · rw [if_neg hc]
      exact iff_of_false
        (fun hm => hc ((mem_uniqueAux _ _ c).mpr ⟨hm, List.not_mem_nil c⟩)) (by simp)
  · intro p hp
    rw [deriveInitial] at hp
    obtain ⟨c, -, rfl⟩ := List.mem_map.mp hp
    rfl
  · rw [hkeys]
    exact nodup_uniqueAux _ []
  · rw [deriveInitial, List.length_map, length_uniqueAux]

theorem deriveInitial_complete_witness :
    (("Appetizers", true) : String × Bool).2 = true :=
  (deriveInitial_complete demoCatalog).2.1 ("Appetizers", true) (by decide)

/-- Claim C7: with the three-item demo catalog, search text "sa" and every
category selected, the FilteredView is exactly one "Salads" section holding
exactly Greek Salad. -/
theorem demo_search_sa :
    filterData demoCatalog ("sa") [("Appetizers", true), ("Salads", true), ("Beverages", true)]
      = [⟨"Salads", [⟨"5", "Greek Salad", "9.99", "Salads"⟩]⟩] := by
  decide

/-- Claim C8: with the demo catalog, empty search text and Appetizers
deselected, the FilteredView has no Appetizers section at all, while the
Salads and Beverages sections each hold their item. -/
theorem demo_deselect_appetizers :
    filterData demoCatalog ("") [("Appetizers", false), ("Salads", true), ("Beverages", true)]
      = [⟨"Salads", [⟨"5", "Greek Salad", "9.99", "Salads"⟩]⟩,
         ⟨"Beverages", [⟨"9", "Water", "1.99", "Beverages"⟩]⟩]
    ∧ "Appetizers" ∉ (filterData demoCatalog ("")
        [("Appetizers", false), ("Salads", true), ("Beverages", true)]).map
          SectionData.title := by
  decide

/-- Claim C2: when the remote fetch always fails and the store is empty or
unavailable, catalog resolution still returns (it is a total function) and
yields the bundled default list, which is non-empty with at least 4 items
spanning at least 2 distinct categories. -/
theorem resolveCatalog_fallback (store : Option (List MenuItem))
    (h : store = none ∨ store = some []) :
    resolveCatalog none store = MENU_ITEMS
    ∧ MENU_ITEMS ≠ []
    ∧ 4 ≤ MENU_ITEMS.length
    ∧ 2 ≤ (uniqueAux [] (MENU_ITEMS.map MenuItem.category)).length := by
  refine ⟨?_, by decide, by decide, by decide⟩
  rcases h with rfl | rfl
  · rfl
  · rfl

theorem resolveCatalog_fallback_witness :
    resolveCatalog none none = MENU_ITEMS :=
  (resolveCatalog_fallback none (Or.inl rfl)).1

/-! ### Lemmas about single-key updates of a selection map -/

theorem alookup_setval_ne {β : Type} (l : List (String × β)) (c c2 : String) (v : β)
    (h : c2 ≠ c) :
    alookup (l.map (fun p => if p.1 = c then (p.1, v) else p)) c2 = alookup l c2 := by
  induction l with
  | nil => rfl
  | cons p ps ih =>
    simp only [List.map_cons]
    by_cases hp : p.1 = c
    · rw [if_pos hp, alookup_cons, alookup_cons]
      have hne : ¬(p.1 = c2) := fun hh => h (hh.symm.trans hp)
      rw [if_neg hne, if_neg hne, ih]
    · rw [if_neg hp, alookup_cons, alookup_cons]
      by_cases hq : p.1 = c2
      · rw [if_pos hq, if_pos hq]
      · rw [if_neg hq, if_neg hq, ih]

theorem alookup_setval_self {β : Type} (l : List (String × β)) (c : String) (v : β) :
    alookup (l.map (fun p => if p.1 = c then (p.1, v) else p)) c
      = (alookup l c).map (fun _ => v) := by
  induction l with
  | nil => rfl
  | cons p ps ih =>
    simp only [List.map_cons]
    by_cases hp : p.1 = c
    · rw [if_pos hp, alookup_cons, alookup_cons, if_pos hp, if_pos hp]
      rfl
    · rw [if_neg hp, alookup_cons, alookup_cons, if_neg hp, if_neg hp, ih]

theorem keys_setval {β : Type} (l : List (String × β)) (c : String) (v : β) :
    (l.map (fun p => if p.1 = c then (p.1, v) else p)).map Prod.fst = l.map Prod.fst := by
  rw [List.map_map]
  apply List.map_congr_left
  intro p _
  by_cases hp : p.1 = c <;> simp [hp]

theorem alookup_append_single_ne {β : Type} (l : List (String × β)) (c c2 : String)
    (v : β) (h : c2 ≠ c) :
    alookup (l ++ [(c, v)]) c2 = alookup l c2 := by
  induction l with
  | nil =>
    rw [List.nil_append, alookup_cons, alookup_nil,
      if_neg (fun hh => h hh.symm)]
  | cons p ps ih =>
    rw [List.cons_append, alookup_cons, alookup_cons]
    by_cases hq : p.1 = c2
    · rw [if_pos hq, if_pos hq]
    · rw [if_neg hq, if_neg hq, ih]

theorem alookup_append_single_self {β : Type} (l : List (String × β)) (c : String)
    (v : β) (h : alookup l c = none) :
    alookup (l ++ [(c, v)]) c = some v := by
  induction l with
  | nil => rw [List.nil_append, alookup_cons, if_pos rfl]
  | cons p ps ih =>
    rw [alookup_cons] at h
    by_cases hq : p.1 = c
    · rw [if_pos hq] at h
      exact Option.noConfusion h
    · rw [if_neg hq] at h
      rw [List.cons_append, alookup_cons, if_neg hq]
      exact ih h

theorem alookup_of_mem_nodup {β : Type} (l : List (String × β)) (p : String × β)
    (hnd : (l.map Prod.fst).Nodup) (hp : p ∈ l) : alookup l p.1 = some p.2 := by
  induction l with
  | nil => cases hp
  | cons q qs ih =>
    rw [List.map_cons, List.nodup_cons] at hnd
    rcases List.mem_cons.mp hp with rfl | hp'
    · rw [alookup_cons, if_pos rfl]
    · have hne : ¬(q.1 = p.1) := fun hh => hnd.1 (by
        rw [hh]
        exact List.mem_map_of_mem Prod.fst hp')
      rw [alookup_cons, if_neg hne]
      exact ih hnd.2 hp'

theorem toggleCategory_of_isSome (prev : List (String × Bool)) (c : String) (v : Bool)
    (hv : alookup prev c = some v) :
    toggleCategory prev c = prev.map (fun p => if p.1 = c then (p.1, !v) else p) := by
  rw [toggleCategory, if_pos (by rw [hv]; rfl)]
  simp only [hv, Option.getD_some]

/-- Claim C6 counterexample: toggling a category that is absent from the
selection map is not a no-op — src/App.tsx adds the key (with value `true`). -/
theorem toggleCategory_adds_missing_key :
    toggleCategory [] "Desserts" ≠ []
    ∧ "Desserts" ∈ (toggleCategory [] "Desserts").map Prod.fst := by
  decide

/-- Claim C6 (amended): `toggleCategory state c` leaves every key other than
`c` unchanged and maps `c` to the negation of its current value (`false` when
absent); when `c` is already a key the key set is unchanged, and when `c` is
absent the entry `(c, true)` is appended — so toggling an absent key adds it
rather than being a no-op. -/
theorem toggleCategory_frame (state : List (String × Bool)) (c : String) :
    (∀ c2, c2 ≠ c → alookup (toggleCategory state c) c2 = alookup state c2)
    ∧ alookup (toggleCategory state c) c = some (!((alookup state c).getD false))
    ∧ (toggleCategory state c).map Prod.fst
      = (if (alookup state c).isSome then state.map Prod.fst
         else state.map Prod.fst ++ [c]) := by
  by_cases hs : (alookup state c).isSome = true
  · obtain ⟨v, hv⟩ := Option.isSome_iff_exists.mp hs
    have ht : toggleCategory state c
        = state.map (fun p => if p.1 = c then (p.1, !v) else p) :=
      toggleCategory_of_isSome state c v hv
    refine ⟨?_, ?_, ?_⟩
    · intro c2 hc2
      rw [ht]
      exact alookup_setval_ne state c c2 _ hc2
    · rw [ht, alookup_setval_self, hv]
      rfl
    · rw [ht, if_pos hs, keys_setval]
  · have hnone : alookup state c = none := by
      cases halo : alookup state c with
      | none => rfl
      | some v => exact absurd (by rw [halo]; rfl) hs
    have ht : toggleCategory state c
        = state ++ [(c, !((alookup state c).getD false))] := by
      rw [toggleCategory, if_neg hs]
    refine ⟨?_, ?_, ?_⟩
    · intro c2 hc2
      rw [ht]
      exact alookup_append_single_ne state c c2 _ hc2
    · rw [ht]
      exact alookup_append_single_self state c _ hnone
    · rw [ht, if_neg hs, List.map_append]
      rfl

theorem toggleCategory_frame_witness :
    alookup (toggleCategory [("Appetizers", true), ("Salads", true)] "Salads") "Appetizers"
      = alookup [("Appetizers", true), ("Salads", true)] "Appetizers"
    ∧ alookup (toggleCategory [("Appetizers", true), ("Salads", true)] "Salads") "Salads"
      = some (!((alookup [("Appetizers", true), ("Salads", true)] "Salads").getD false)) :=
  ⟨(toggleCategory_frame [("Appetizers", true), ("Salads", true)] "Salads").1
      "Appetizers" (by decide),
   (toggleCategory_frame [("Appetizers", true), ("Salads", true)] "Salads").2.1⟩

/-- Claim C10: toggling the same present key twice restores the original
selection map. -/
theorem toggleCategory_involutive (state : List (String × Bool)) (c : String)
    (hnd : (state.map Prod.fst).Nodup) (hs : (alookup state c).isSome = true) :
    toggleCategory (toggleCategory state c) c = state := by
  obtain ⟨v, hv⟩ := Option.isSome_iff_exists.mp hs
  have ht1 : toggleCategory state c
      = state.map (fun p => if p.1 = c then (p.1, !v) else p) :=
    toggleCategory_of_isSome state c v hv
  have hlt : alookup (toggleCategory state c) c = some (!v) := by
    rw [ht1, alookup_setval_self, hv]
    rfl
  have ht2 : toggleCategory (toggleCategory state c) c
      = (toggleCategory state c).map (fun p => if p.1 = c then (p.1, !!v) else p) :=
    toggleCategory_of_isSome (toggleCategory state c) c (!v) hlt
  rw [ht2, ht1, List.map_map]
  have hid : ∀ p ∈ state,
      ((fun p => if p.1 = c then (p.1, !!v) else p)
        ∘ (fun p => if p.1 = c then (p.1, !v) else p)) p = id p := by
    intro p hp
    obtain ⟨a, b⟩ := p
    by_cases hpc : a = c
    · have hpv : b = v := by
        have hm := alookup_of_mem_nodup state (a, b) hnd hp
        rw [hpc, hv] at hm
        exact (Option.some.inj hm).symm
      simp [Function.comp, hpc, hpv, Bool.not_not]
    · simp [Function.comp, hpc]
  rw [List.map_congr_left hid, List.map_id]

theorem toggleCategory_involutive_witness :
    toggleCategory (toggleCategory [("Salads", true)] "Salads") "Salads"
      = [("Salads", true)] :=
  toggleCategory_involutive [("Salads", true)] "Salads" (by decide) (by decide)

/-- Claim C9 counterexample: two filter evaluations with the same catalog,
search text and selection publish different FilteredViews — the published view
also depends on whether the storage re-read inside the filter effect succeeds
(on failure the catch block filters `MENU_ITEMS` instead of the catalog). -/
theorem publishedFilteredView_not_pure :
    publishedFilteredView (getSectionListData pizzaCatalog) (some pizzaCatalog) ""
      [("Mains", true)] []
    ≠ publishedFilteredView (getSectionListData pizzaCatalog) none ("")
      [("Mains", true)] [] := by
  decide

/-- Claim C9 (amended): when the loaded catalog is nonempty and the storage
re-read returns the loaded catalog, the published FilteredView is the pure
function `filterData` of the catalog, search text and selection, independent
of the previously published view; when the loaded catalog is empty the effect
returns early and the previously published view is retained unchanged. -/
theorem publishedFilteredView_pure_cases :
    (∀ (catalog : List MenuItem) (searchText : String) (sel : List (String × Bool))
        (prev : List SectionData), catalog ≠ [] →
      publishedFilteredView (getSectionListData catalog) (some catalog) searchText sel prev
        = filterData catalog searchText sel)
    ∧ (∀ (storeRead : Option (List MenuItem)) (searchText : String)
        (sel : List (String × Bool)) (prev : List SectionData),
      publishedFilteredView [] storeRead searchText sel prev = prev) := by
  constructor
  · intro catalog searchText sel prev h
    have hne : ¬((getSectionListData catalog).length = 0) := by
      cases catalog with
      | nil => exact absurd rfl h
      | cons i rest =>
        have hmem : (⟨i.category,
            (i :: rest).filter (fun i' => i'.category = i.category)⟩ : SectionData)
            ∈ getSectionListData (i :: rest) := by
          rw [getSectionListData_eq]
          refine List.mem_map_of_mem _ ?_
          refine (mem_jsKeyOrder _ _).mpr ?_
          refine (mem_uniqueAux _ _ _).mpr ⟨?_, List.not_mem_nil _⟩
          exact List.mem_map_of_mem MenuItem.category (List.mem_cons_self i rest)
        have hpos := List.length_pos_of_mem hmem
        omega
    rw [publishedFilteredView, if_neg hne]
  · intro storeRead searchText sel prev
    rfl

theorem publishedFilteredView_pure_cases_witness :
    publishedFilteredView (getSectionListData demoCatalog) (some demoCatalog) "" [] []
      = filterData demoCatalog ("") [] :=
  publishedFilteredView_pure_cases.1 demoCatalog ("") [] [] (by decide)

/-! ### Lemmas for grouping idempotence -/

theorem filter_cat_filter_cat (items : List MenuItem) (c d : String) :
    (items.filter (fun i => i.category = c)).filter (fun i => i.category = d)
      = if c = d then items.filter (fun i => i.category = d) else [] := by
  by_cases hcd : c = d
  · subst hcd
    rw [if_pos rfl]
    induction items with
    | nil => rfl
    | cons i rest ih =>
      rw [List.filter_cons]
      by_cases hic : i.category = c
      · rw [if_pos (by simp [hic]), List.filter_cons, if_pos (by simp [hic]), ih]
      · rw [if_neg (by simp [hic]), ih]
  · rw [if_neg hcd]
    induction items with
    | nil => rfl
    | cons i rest ih =>
      rw [List.filter_cons]
      by_cases hic : i.category = c
      · rw [if_pos (by simp [hic]), List.filter_cons, if_neg (by simp [hic, hcd]), ih]
      · rw [if_neg (by simp [hic]), ih]

theorem map_cat_filter (items : List MenuItem) (c : String) :
    (items.filter (fun i => i.category = c)).map MenuItem.category
      = List.replicate ((items.filter (fun i => i.category = c)).length) c := by
  have h : ∀ b ∈ (items.filter (fun i => i.category = c)).map MenuItem.category, b = c := by
    intro b hb
    obtain ⟨i, hi, rfl⟩ := List.mem_map.mp hb
    exact of_decide_eq_true (List.mem_filter.mp hi).2
  rw [List.eq_replicate_of_mem h, List.length_map]

theorem uniqueAux_skip_replicate (c : String) (t : List String) :
    ∀ (m : Nat) (s : List String), c ∈ s →
      uniqueAux s (List.replicate m c ++ t) = uniqueAux s t := by
  intro m
  induction m with
  | zero =>
    intro s _
    rw [List.replicate_zero, List.nil_append]
  | succ k ih =>
    intro s hc
    rw [List.replicate_succ, List.cons_append, uniqueAux_cons, if_pos hc]
    exact ih s hc

theorem uniqueAux_replicate_blocks (n : String → Nat) :
    ∀ (u seen : List String), u.Nodup → (∀ c ∈ u, 0 < n c) → (∀ c ∈ u, c ∉ seen) →
      uniqueAux seen ((u.map (fun c => List.replicate (n c) c)).flatten) = u := by
  intro u
  induction u with
  | nil => intro seen _ _ _; rfl
  | cons c us ih =>
    intro seen hnd hpos hseen
    rw [List.map_cons, List.flatten_cons]
    obtain ⟨k, hk⟩ : ∃ k, n c = k + 1 := ⟨n c - 1, by
      have := hpos c (List.mem_cons_self c us)
      omega⟩
    rw [hk, List.replicate_succ, List.cons_append, uniqueAux_cons,
      if_neg (hseen c (List.mem_cons_self c us))]
    congr 1
    rw [uniqueAux_skip_replicate c ((us.map (fun d => List.replicate (n d) d)).flatten)
      k (c :: seen) (List.mem_cons_self c seen)]
    refine ih (c :: seen) (List.nodup_cons.mp hnd).2
      (fun d hd => hpos d (List.mem_cons_of_mem c hd)) ?_
    intro d hd hmem
    rcases List.mem_cons.mp hmem with rfl | hmem'
    · exact (List.nodup_cons.mp hnd).1 hd
    · exact hseen d (List.mem_cons_of_mem c hd) hmem'

theorem flatten_if_single_nil {α : Type} (b : List α) (c : String) :
    ∀ u : List String, (∀ d ∈ u, ¬(d = c)) →
      (u.map (fun d => if d = c then b else [])).flatten = [] := by
  intro u
  induction u with
  | nil => intro _; rfl
  | cons x us ih =>
    intro h
    rw [List.map_cons, List.flatten_cons, if_neg (h x (List.mem_cons_self x us)),
      List.nil_append]
    exact ih (fun d hd => h d (List.mem_cons_of_mem x hd))

theorem flatten_if_single {α : Type} (b : List α) :
    ∀ (u : List String) (c : String), u.Nodup → c ∈ u →
      (u.map (fun d => if d = c then b else [])).flatten = b := by
  intro u
  induction u with
  | nil =>
    intro c _ hc
    cases hc
  | cons x us ih =>
    intro c hnd hc
    rw [List.map_cons, List.flatten_cons]
    rcases List.mem_cons.mp hc with rfl | hc'
    · rw [if_pos rfl, flatten_if_single_nil b c us
        (fun d hd hdc => (List.nodup_cons.mp hnd).1 (hdc ▸ hd)), List.append_nil]
    · rw [if_neg (fun hxc => (List.nodup_cons.mp hnd).1 (by rw [hxc]; exact hc')),
        List.nil_append]
      exact ih c (List.nodup_cons.mp hnd).2 hc'

/-- Claim C4: grouping is total and idempotent — regrouping the flattening of
the grouped sections gives the same sections, and the empty sequence yields
the empty section list. -/
theorem grouping_idempotent (items : List MenuItem) :
    getSectionListData (flattenSections (getSectionListData items))
      = getSectionListData items
    ∧ getSectionListData ([] : List MenuItem) = [] := by
  refine ⟨?_, rfl⟩
  have hund : (uniqueAux [] (items.map MenuItem.category)).Nodup := nodup_uniqueAux _ []
  have hwnd : (jsKeyOrder (uniqueAux [] (items.map MenuItem.category))).Nodup :=
    nodup_jsKeyOrder _ hund
  have hflat : flattenSections (getSectionListData items)
      = ((jsKeyOrder (uniqueAux [] (items.map MenuItem.category))).map
          (fun c => items.filter (fun i => i.category = c))).flatten := by
    rw [flattenSections, getSectionListData_eq, List.map_map]
    rfl
  have hcats : (flattenSections (getSectionListData items)).map MenuItem.category
      = ((jsKeyOrder (uniqueAux [] (items.map MenuItem.category))).map
          (fun c => List.replicate ((items.filter (fun i => i.category = c)).length) c)).flatten := by
    rw [hflat, List.map_flatten, List.map_map]
    congr 1
    apply List.map_congr_left
    intro c _
    exact map_cat_filter items c
  have hpos : ∀ c ∈ jsKeyOrder (uniqueAux [] (items.map MenuItem.category)),
      0 < (items.filter (fun i => i.category = c)).length := by
    intro c hc
    obtain ⟨hcm, -⟩ := (mem_uniqueAux _ _ c).mp ((mem_jsKeyOrder _ c).mp hc)
    obtain ⟨i, hi, hic⟩ := List.mem_map.mp hcm
    exact List.length_pos_of_mem (List.mem_filter.mpr ⟨hi, by simp [hic]⟩)
  have hseen : uniqueAux []
      ((flattenSections (getSectionListData items)).map MenuItem.category)
      = jsKeyOrder (uniqueAux [] (items.map MenuItem.category)) := by
    rw [hcats]
    exact uniqueAux_replicate_blocks
      (fun c => (items.filter (fun i => i.category = c)).length)
      (jsKeyOrder (uniqueAux [] (items.map MenuItem.category))) [] hwnd hpos
      (fun c _ => List.not_mem_nil c)
  have hbucket : ∀ c ∈ jsKeyOrder (uniqueAux [] (items.map MenuItem.category)),
      (flattenSections (getSectionListData items)).filter (fun i => i.category = c)
        = items.filter (fun i => i.category = c) := by
    intro c hc
    rw [hflat, List.filter_flatten, List.map_map]
    have hpt : ∀ d ∈ jsKeyOrder (uniqueAux [] (items.map MenuItem.category)),
        ((List.filter (fun i => i.category = c))
          ∘ (fun d => items.filter (fun i => i.category = d))) d
          = (fun d => if d = c then items.filter (fun i => i.category = c) else []) d := by
      intro d _
      simp only [Function.comp_apply]
      exact filter_cat_filter_cat items d c
    rw [List.map_congr_left hpt]
    exact flatten_if_single (items.filter (fun i => i.category = c))
      (jsKeyOrder (uniqueAux [] (items.map MenuItem.category))) c hwnd hc
  have hmain : getSectionListData (flattenSections (getSectionListData items))
      = (jsKeyOrder (uniqueAux [] (items.map MenuItem.category))).map
          (fun c => ⟨c, items.filter (fun i => i.category = c)⟩) := by
    rw [getSectionListData_eq, hseen, jsKeyOrder_idem]
    apply List.map_congr_left
    intro c hc
    rw [hbucket c hc]
  rw [hmain, ← getSectionListData_eq items]

end LittleLemon
